import Mathlib

/-!
Verification of the boundary-aware CST chunking engine of the code-chopper
repository.  The TypeScript sources are shallowly embedded: tree-sitter
syntax nodes become an inductive tree, the per-language registry, the
name/doc extraction heuristics and the recursive traversal are translated
function by function, and the parser-factory and directory-walk effects are
modelled as explicit oracles and state passing.
-/

namespace CodeChopper

/-- The closed set of language identifiers (`LanguageEnum` in
`language-node-types.ts`, keys of `LANGUAGE_NODE_TYPES`). -/
inductive LanguageEnum where
  | javascript
  | typescript
  | python
  | go
  | rust
  | java
  | csharp
  | ruby
  | c
  | cpp
  | html
  | css
  | bash
deriving DecidableEq, Repr

/-- A tree-sitter `SyntaxNode` as the engine reads it: a kind string
(`node.type`), character offsets (`startIndex`/`endIndex`), the node text,
the row of the start position (`startPosition.row`), the grammar field tag
this node carries inside its parent (used by `childForFieldName`), and the
ordered child list.  Parent and sibling links of the real API are recovered
from the traversal context. -/
inductive Node where
  | mk (type : String) (startIndex : Nat) (endIndex : Nat) (text : String)
      (startRow : Nat) (field : Option String) (children : List Node)

def Node.type : Node → String
  | .mk t _ _ _ _ _ _ => t

def Node.startIndex : Node → Nat
  | .mk _ s _ _ _ _ _ => s

def Node.endIndex : Node → Nat
  | .mk _ _ e _ _ _ _ => e

def Node.text : Node → String
  | .mk _ _ _ t _ _ _ => t

def Node.startRow : Node → Nat
  | .mk _ _ _ _ r _ _ => r

def Node.field : Node → Option String
  | .mk _ _ _ _ _ f _ => f

def Node.children : Node → List Node
  | .mk _ _ _ _ _ _ cs => cs

/-- JavaScript truthiness of a `string | undefined` value: `undefined` and
the empty string are falsy. -/
def jsTruthy : Option String → Bool
  | none => false
  | some s => !(s == "")

/-- `node.childForFieldName(f)`: the first child carrying grammar field
`f`. -/
def childForFieldName (node : Node) (f : String) : Option Node :=
  node.children.find? (fun c => c.field == some f)

/-- JavaScript `String.prototype.includes`: substring containment. -/
def strContains (s pat : String) : Bool :=
  decide (pat.toList <:+: s.toList)

/-- `createBoundaryNodeTypes` (from `language-node-types.ts`): the flattened
union of the per-language `LANGUAGE_NODE_TYPES` categories.  The source
collects them into a `Set`; membership below is what matters. -/
def createBoundaryNodeTypes (language : LanguageEnum) : List String :=
  match language with
  | .javascript =>
      ["function_declaration", "function_expression", "class_declaration",
       "method_definition", "import_statement", "variable_declaration",
       "lexical_declaration"]
  | .typescript =>
      ["function_declaration", "function_expression", "class_declaration",
       "method_definition", "interface_declaration", "type_alias_declaration",
       "import_statement", "variable_declaration", "lexical_declaration",
       "public_field_definition"]
  | .python =>
      ["function_definition", "class_definition", "function_definition",
       "import_statement", "import_from_statement", "assignment"]
  | .go =>
      ["function_declaration", "method_declaration", "type_declaration",
       "import_declaration", "var_spec", "const_spec", "short_var_declaration"]
  | .rust =>
      ["function_item", "struct_item", "impl_item", "trait_item",
       "use_declaration", "let_declaration"]
  | .java =>
      ["method_declaration", "class_declaration", "interface_declaration",
       "import_declaration", "local_variable_declaration"]
  | .csharp =>
      ["method_declaration", "class_declaration", "interface_declaration",
       "using_directive", "local_variable_declaration"]
  | .ruby =>
      ["method", "class", "module", "require", "load", "assignment"]
  | .c =>
      ["function_definition", "struct_specifier", "enum_specifier",
       "type_definition", "preproc_include", "declaration"]
  | .cpp =>
      ["function_definition", "class_specifier", "struct_specifier",
       "namespace_definition", "template_declaration", "preproc_include",
       "declaration"]
  | .html =>
      ["element", "script_element", "style_element"]
  | .css =>
      ["rule_set", "media_statement", "keyframes_statement", "import_statement"]
  | .bash =>
      ["function_definition", "command", "variable_assignment"]

/-- `isBoundary` inside `createNodeTraverser`: membership of a node kind in
the flattened boundary set. -/
def isBoundary (language : LanguageEnum) (nodeType : String) : Bool :=
  (createBoundaryNodeTypes language).contains nodeType

/-- The descending identifier search in the Go branch of
`createNodeNameExtractor`: starting at the node, look among the current
children for an `identifier`; if none, descend into the first child. -/
def goNameLoop : Node → Option String
  | .mk _ _ _ _ _ _ [] => none
  | .mk _ _ _ _ _ _ (c :: rest) =>
    match ((c :: rest).filter (fun x => x.type == "identifier")).head? with
    | some idn => some idn.text
    | none => goNameLoop c

/-- `createNodeNameExtractor(language)` applied to a node.  The real
extractor reads `node.parent` for the arrow-function case, so the parent is
passed explicitly. -/
def extractName (language : LanguageEnum) (parent : Option Node) (node : Node) :
    Option String :=
  let nameField := (childForFieldName node "name").map Node.text
  if jsTruthy nameField then nameField
  else
    let specific : Option String :=
      match language with
      | .javascript | .typescript =>
        if node.type == "arrow_function" then
          match parent with
          | some p =>
            let idNode := (childForFieldName p "name").map Node.text
            if jsTruthy idNode then idNode else none
          | none => none
        else if node.type == "variable_declaration" ||
            node.type == "lexical_declaration" then
          match node.children.find? (fun c => c.type == "variable_declarator") with
          | some child =>
            let idNode := (childForFieldName child "name").map Node.text
            if jsTruthy idNode then idNode else none
          | none => none
        else if node.type == "method_definition" then
          let keyNode := (childForFieldName node "key").map Node.text
          if jsTruthy keyNode then keyNode else none
        else none
      | .go =>
        if node.type == "method_declaration" && jsTruthy nameField then nameField
        else goNameLoop node
      | .rust =>
        if node.type == "function_item" && jsTruthy nameField then nameField
        else none
      | .java | .csharp =>
        if node.type == "method_declaration" && jsTruthy nameField then nameField
        else none
      | _ => none
    match specific with
    | some t => some t
    | none => (node.children.find? (fun c => c.type == "identifier")).map Node.text

/-- Result of a docs extractor (`DocsDetail` in `language-node-types.ts`):
either no documentation, or the doc text together with its character span. -/
inductive DocsDetail where
  | noDocs
  | docs (text : String) (startIndex : Nat) (endIndex : Nat)
deriving DecidableEq, Repr

def DocsDetail.hasDocs : DocsDetail → Bool
  | .noDocs => false
  | .docs _ _ _ => true

/-- Traversal context of a node: its preceding siblings (nearest first) and,
when it has a parent, the parent together with the parent's preceding
siblings (nearest first).  This mirrors the `previousSibling`/`parent`
links of the tree-sitter API. -/
structure Ctx where
  prevRev : List Node
  parent : Option (Node × List Node)

/-- The backward walk inside `extractOuterDocComment`: starting at the doc
candidate, keep stepping to the previous sibling while it is a comment that
starts exactly one row above, accumulating each visited node's text followed
by a newline.  Returns the earliest node reached and the accumulated text. -/
def docWalk : Node → List Node → String → Node × String
  | cur, [], acc => (cur, cur.text ++ "\n" ++ acc)
  | cur, p :: rest, acc =>
    if strContains p.type "comment" && (cur.startRow == p.startRow + 1) then
      docWalk p rest (cur.text ++ "\n" ++ acc)
    else (cur, cur.text ++ "\n" ++ acc)

/-- The body of `extractOuterDocComment` once the doc candidate's sibling
list is fixed: if the nearest sibling is a comment, collect the contiguous
comment run above it; the doc span runs from the earliest collected
comment's start to the candidate's end. -/
def outerDocFromSibs (sibs : List Node) : DocsDetail :=
  match sibs with
  | [] => .noDocs
  | dc :: before =>
    let w := docWalk dc before ""
    if strContains dc.type "comment" then
      .docs w.2 w.1.startIndex dc.endIndex
    else .noDocs

/-- The JS/TS adjustment of the doc candidate: when the node's direct parent
is an `export_statement` wrapper, the candidate is the wrapper's previous
sibling instead of the node's own. -/
def exportAdjusted (ctx : Ctx) : List Node :=
  match ctx.parent with
  | some (p, pPrev) => if p.type == "export_statement" then pPrev else ctx.prevRev
  | none => ctx.prevRev

/-- `extractOuterDocComment` from `createDocsExtracor`: the candidate is the
previous sibling (for JS/TS, the parent wrapper's previous sibling when the
parent is an `export_statement`); if it is a comment, the contiguous comment
run above it is collected. -/
def extractOuterDocComment (language : LanguageEnum) (ctx : Ctx) (_node : Node) :
    DocsDetail :=
  outerDocFromSibs
    (match language with
    | .javascript | .typescript => exportAdjusted ctx
    | _ => ctx.prevRev)

/-- `extractPyDocComment`: the candidate is
`node.lastChild?.firstChild?.firstChild`; it is a docstring when its kind is
`string`. -/
def extractPyDocComment (node : Node) : DocsDetail :=
  match (node.children.getLast?.bind fun c => c.children.head?).bind
      (fun c => c.children.head?) with
  | some d =>
      if d.type == "string" then .docs d.text d.startIndex d.endIndex
      else .noDocs
  | none => .noDocs

/-- The dispatcher returned by `createDocsExtracor`: comment-adjacency
languages use the outer comment walk, Python uses the docstring rule, and
the markup/shell languages never produce docs. -/
def extractDocs (language : LanguageEnum) (ctx : Ctx) (node : Node) : DocsDetail :=
  match language with
  | .javascript | .typescript | .rust | .java | .ruby | .c | .cpp | .go
  | .csharp => extractOuterDocComment language ctx node
  | .python => extractPyDocComment node
  | .html | .css | .bash => .noDocs

/-- `CSTBoundaryWithMeta` from `cst-operations.ts`. -/
structure CSTBoundaryWithMeta where
  type : String
  parentInfo : List String
  name : Option String
  startIndex : Nat
  endIndex : Nat
  text : String
  docsText : String
deriving DecidableEq, Repr

mutual

/-- The recursive `visit` of `createNodeTraverser`: compute docs and name,
emit a record when the node kind is a boundary kind and the filter accepts
the node (extending `startIndex` to the docs start when docs were found),
extend the parent chain only for accepted, truthy-named nodes, and always
descend into the children. -/
def visit (language : LanguageEnum) (filter : LanguageEnum → Node → Bool) :
    Node → Ctx → List String → List CSTBoundaryWithMeta
  | n@(.mk k _ e t _ _ cs), ctx, parentInfo =>
    let docs := extractDocs language ctx n
    let name := extractName language (ctx.parent.map Prod.fst) n
    let accepted := isBoundary language k && filter language n
    let own : List CSTBoundaryWithMeta :=
      if accepted then
        [{ type := k
           parentInfo := parentInfo
           name := name
           startIndex :=
             match docs with
             | .docs _ ds _ => ds
             | .noDocs => n.startIndex
           endIndex := e
           text := t
           docsText :=
             match docs with
             | .docs dt _ _ => dt
             | .noDocs => "" }]
      else []
    let childInfo :=
      if accepted && jsTruthy name then parentInfo ++ [name.getD ""]
      else parentInfo
    own ++ visitChildren language filter cs n ctx.prevRev [] childInfo

/-- Iteration over `node.children` inside `visit`, threading each child's
sibling context. -/
def visitChildren (language : LanguageEnum) (filter : LanguageEnum → Node → Bool) :
    List Node → Node → List Node → List Node → List String →
    List CSTBoundaryWithMeta
  | [], _, _, _, _ => []
  | c :: rest, parent, parentPrevRev, prevRev, parentInfo =>
    visit language filter c ⟨prevRev, some (parent, parentPrevRev)⟩ parentInfo ++
      visitChildren language filter rest parent parentPrevRev (c :: prevRev)
        parentInfo

end

/-- `traverse` of `createNodeTraverser`: visit the root with an empty parent
chain and empty context. -/
def traverse (language : LanguageEnum) (filter : LanguageEnum → Node → Bool)
    (root : Node) : List CSTBoundaryWithMeta :=
  visit language filter root ⟨[], none⟩ []

/-- The `boundary` field of a `BoundaryChunk` (type `BoundaryInfo` in
`boundary-aware-chunking.ts`; `name` and `docs` are declared optional). -/
structure BoundaryInfo where
  type : String
  name : Option String
  parent : List String
  docs : Option String
deriving DecidableEq, Repr

/-- `BoundaryChunk` from `boundary-aware-chunking.ts` (without the optional
`filePath`, which only the file orchestrator attaches). -/
structure BoundaryChunk where
  content : String
  startOffset : Nat
  endOffset : Nat
  boundary : BoundaryInfo
deriving DecidableEq, Repr

/-- `boundariesToChunks` from `cst-operations.ts`: the order-preserving
materialization of raw boundaries into chunks; `docs` is always assigned
from `docsText`. -/
def boundariesToChunks (boundaries : List CSTBoundaryWithMeta) :
    List BoundaryChunk :=
  boundaries.map fun b =>
    { content := b.text
      startOffset := b.startIndex
      endOffset := b.endIndex
      boundary :=
        { type := b.type
          name := b.name
          parent := b.parentInfo
          docs := some b.docsText } }

/-- The chunking pipeline for one parsed source unit: `traverse` followed by
`boundariesToChunks` (the composition performed by `chunkWithCST` once the
parser has produced the tree). -/
def chunkCST (language : LanguageEnum) (filter : LanguageEnum → Node → Bool)
    (root : Node) : List BoundaryChunk :=
  boundariesToChunks (traverse language filter root)

end CodeChopper

namespace CodeChopper

/-! ### Parser factory (`parser-factory.ts`) -/

/-- Abstract stand-in for a loaded grammar module object. -/
structure GrammarModule where
  id : Nat
deriving DecidableEq, Repr

/-- Abstract stand-in for a tree-sitter `Parser` instance; distinct ids are
distinct instances. -/
structure Parser where
  id : Nat
deriving DecidableEq, Repr

/-- Modelled from the spec: `isSupportedLanguage` lives in the repository's
`file-extensions.ts`, which is not among the provided sources.  Per the spec
(§3, §4.2) LanguageId is a closed enumeration and the type guard recognises
exactly its members, so the guard maps the thirteen LanguageId strings to
the enumeration and rejects every other string. -/
def isSupportedLanguage : String → Option LanguageEnum
  | "javascript" => some .javascript
  | "typescript" => some .typescript
  | "python" => some .python
  | "go" => some .go
  | "rust" => some .rust
  | "java" => some .java
  | "csharp" => some .csharp
  | "ruby" => some .ruby
  | "c" => some .c
  | "cpp" => some .cpp
  | "html" => some .html
  | "css" => some .css
  | "bash" => some .bash
  | _ => none

/-- Environment oracle for the effectful parts of `createParser`:
`loadResult` is the outcome of the dynamic grammar-module import performed
by `createLanguageLoader` (`none` models both a failed import, which the
loader's own `try/catch` turns into `null`, and a `null` module export);
`bindOk` tells whether `parser.setLanguage(module)` succeeds or throws. -/
structure LoaderEnv where
  loadResult : LanguageEnum → Option GrammarModule
  bindOk : GrammarModule → Bool

/-- The mutable state owned by one `createParserFactory()` instance: the
`parsers` cache map and a counter for minting fresh parser instances. -/
structure FactoryState where
  parsers : List (String × Parser)
  nextId : Nat
deriving DecidableEq, Repr

/-- Observable completion of one `createParser` call: either the process was
terminated (the `exit()` call in the `setLanguage` catch handler) or the
call returned a parser-or-null. -/
inductive CallResult where
  | terminated
  | returned (parser : Option Parser)
deriving DecidableEq, Repr

/-- `createParser` from `createParserFactory`, as a state transition.  The
third component lists the grammar loads attempted during the call.
Control flow follows the source: unsupported language returns `null` at
once; a cache miss triggers one load; a `null` module skips binding; a
binding failure hits the catch handler, which calls `exit()`; otherwise the
parser is cached.  The final `parsers.get(language) || null` read is folded
into each branch. -/
def createParser (env : LoaderEnv) (st : FactoryState) (language : String) :
    CallResult × FactoryState × List LanguageEnum :=
  match isSupportedLanguage language with
  | none => (.returned none, st, [])
  | some l =>
    match st.parsers.find? (fun e => e.1 == language) with
    | some e => (.returned (some e.2), st, [])
    | none =>
      match env.loadResult l with
      | none => (.returned none, st, [l])
      | some m =>
        if env.bindOk m then
          let p : Parser := ⟨st.nextId⟩
          (.returned (some p), ⟨st.parsers ++ [(language, p)], st.nextId + 1⟩, [l])
        else (.terminated, st, [l])

/-! ### Directory walk (`file-operations.ts`) -/

/-- A directory tree whose files carry the outcome their
`readFileAndChunk` promise would settle with: chunks on fulfilment, an
error message on rejection (unreadable file, missing parser, parse
failure). -/
inductive FSEntry where
  | file (name : String) (outcome : Except String (List BoundaryChunk))
  | dir (name : String) (entries : List FSEntry)

/-- `isSupportedLanguageExtension`: the unanchored regex
test for a dot followed by one of the supported extension
stems, anywhere in the file name. -/
def isSupportedLanguageExtension (filename : String) : Bool :=
  [".ts", ".js", ".tsx", ".jsx", ".py", ".java", ".cpp", ".c", ".h", ".cs",
   ".go", ".rb", ".php"].any (fun e => strContains filename e)

mutual

/-- `_readDirectoryAndChunkRecursive`: entries are mapped to promises and
combined with `Promise.all`.  `readFileAndChunk` is `async`, so invoking it
never throws synchronously and the surrounding `try/catch` intercepts
nothing; a rejected per-file promise therefore makes `Promise.all` — and
with it the whole directory operation — reject.  The model propagates the
first error in entry order. -/
def readDirectoryAndChunk : List FSEntry → Except String (List BoundaryChunk)
  | [] => .ok []
  | e :: rest =>
    match chunkEntry e, readDirectoryAndChunk rest with
    | .error msg, _ => .error msg
    | .ok _, .error msg => .error msg
    | .ok cs, .ok cs2 => .ok (cs ++ cs2)

/-- One entry of the directory walk: subdirectories recurse, files with a
supported extension contribute their promise outcome, other files yield an
empty chunk list. -/
def chunkEntry : FSEntry → Except String (List BoundaryChunk)
  | .file nm outcome =>
      if isSupportedLanguageExtension nm then outcome else .ok []
  | .dir _ entries => readDirectoryAndChunk entries

end

/-! ### Wellformedness of syntax trees -/

/-- The substring of `src` between character offsets `a` (inclusive) and `b`
(exclusive), the reading of `source[a:b]` used by tree-sitter offsets. -/
def sliceStr (src : String) (a b : Nat) : String :=
  String.mk ((src.toList.drop a).take (b - a))

/-- Children occupy ordered, non-overlapping spans inside `[lo, hi]`. -/
def childSpans (lo hi : Nat) : List Node → Bool
  | [] => true
  | c :: rest =>
      decide (lo ≤ c.startIndex) && decide (c.endIndex ≤ hi) &&
        childSpans c.endIndex hi rest

mutual

/-- Span wellformedness of a tree-sitter tree: every node's span is ordered
and its children sit inside it in document order without overlap. -/
def SpansOrdered : Node → Bool
  | .mk _ s e _ _ _ cs => decide (s ≤ e) && childSpans s e cs && SpansList cs

def SpansList : List Node → Bool
  | [] => true
  | c :: rest => SpansOrdered c && SpansList rest

end

mutual

/-- Text wellformedness against a source string: every node's `text` is the
slice of `src` delimited by its offsets, which lie inside the source. -/
def TextMatches (src : String) : Node → Bool
  | .mk _ s e t _ _ cs =>
      (t == sliceStr src s e) && decide (e ≤ src.length) && TextList src cs

def TextList (src : String) : List Node → Bool
  | [] => true
  | c :: rest => TextMatches src c && TextList src rest

end

/-- A tree consistent with a source string: tree-sitter guarantees both span
and text wellformedness for the tree it returns for `src`. -/
def Consistent (src : String) (n : Node) : Bool :=
  SpansOrdered n && TextMatches src n

/-! ### Specification-side definitions -/

/-- The parent chain as the spec words it: the names of exactly those
ancestors that are accepted boundaries (boundary kind and filter approved)
and carry a truthy name, outermost first.  Each ancestor is recorded
together with its own parent node, which the name extractor may consult. -/
def specParentChain (language : LanguageEnum)
    (filter : LanguageEnum → Node → Bool)
    (anc : List (Option Node × Node)) : List String :=
  anc.filterMap fun pa =>
    let nm := extractName language pa.1 pa.2
    if isBoundary language pa.2.type && filter language pa.2 && jsTruthy nm then
      some (nm.getD "")
    else none

mutual

/-- Specification-side traversal: identical to `visit` except that it
carries the explicit ancestor list and computes each emitted record's
parent chain with `specParentChain`. -/
def visitSpec (language : LanguageEnum) (filter : LanguageEnum → Node → Bool) :
    Node → Ctx → List (Option Node × Node) → List CSTBoundaryWithMeta
  | n@(.mk k _ e t _ _ cs), ctx, anc =>
    let docs := extractDocs language ctx n
    let name := extractName language (ctx.parent.map Prod.fst) n
    let accepted := isBoundary language k && filter language n
    let own : List CSTBoundaryWithMeta :=
      if accepted then
        [{ type := k
           parentInfo := specParentChain language filter anc
           name := name
           startIndex :=
             match docs with
             | .docs _ ds _ => ds
             | .noDocs => n.startIndex
           endIndex := e
           text := t
           docsText :=
             match docs with
             | .docs dt _ _ => dt
             | .noDocs => "" }]
      else []
    own ++ visitSpecChildren language filter cs n ctx.prevRev []
      (anc ++ [(ctx.parent.map Prod.fst, n)])

def visitSpecChildren (language : LanguageEnum)
    (filter : LanguageEnum → Node → Bool) :
    List Node → Node → List Node → List Node → List (Option Node × Node) →
    List CSTBoundaryWithMeta
  | [], _, _, _, _ => []
  | c :: rest, parent, parentPrevRev, prevRev, anc =>
    visitSpec language filter c ⟨prevRev, some (parent, parentPrevRev)⟩ anc ++
      visitSpecChildren language filter rest parent parentPrevRev (c :: prevRev)
        anc

end

/-- Specification-side pipeline entry point. -/
def traverseSpec (language : LanguageEnum) (filter : LanguageEnum → Node → Bool)
    (root : Node) : List CSTBoundaryWithMeta :=
  visitSpec language filter root ⟨[], none⟩ []

/-- The docs string stored for one node, as the spec words it: the found
documentation's text, and the empty string when no documentation was
found. -/
def DocsDetail.textOrEmpty : DocsDetail → String
  | .docs t _ _ => t
  | .noDocs => ""

mutual

/-- Specification-side traversal for documentation: identical to `visit`
except that each emitted record's `docsText` is written as
`(extractDocs …).textOrEmpty` — the extractor's found text, and the empty
string exactly when the extractor found nothing at that node. -/
def visitDocsSpec (language : LanguageEnum)
    (filter : LanguageEnum → Node → Bool) :
    Node → Ctx → List String → List CSTBoundaryWithMeta
  | n@(.mk k _ e t _ _ cs), ctx, parentInfo =>
    let docs := extractDocs language ctx n
    let name := extractName language (ctx.parent.map Prod.fst) n
    let accepted := isBoundary language k && filter language n
    let own : List CSTBoundaryWithMeta :=
      if accepted then
        [{ type := k
           parentInfo := parentInfo
           name := name
           startIndex :=
             match docs with
             | .docs _ ds _ => ds
             | .noDocs => n.startIndex
           endIndex := e
           text := t
           docsText := docs.textOrEmpty }]
      else []
    let childInfo :=
      if accepted && jsTruthy name then parentInfo ++ [name.getD ""]
      else parentInfo
    own ++ visitDocsSpecChildren language filter cs n ctx.prevRev [] childInfo

def visitDocsSpecChildren (language : LanguageEnum)
    (filter : LanguageEnum → Node → Bool) :
    List Node → Node → List Node → List Node → List String →
    List CSTBoundaryWithMeta
  | [], _, _, _, _ => []
  | c :: rest, parent, parentPrevRev, prevRev, parentInfo =>
    visitDocsSpec language filter c ⟨prevRev, some (parent, parentPrevRev)⟩
        parentInfo ++
      visitDocsSpecChildren language filter rest parent parentPrevRev
        (c :: prevRev) parentInfo

end

/-- Entry point of the documentation characterization traversal. -/
def traverseDocsSpec (language : LanguageEnum)
    (filter : LanguageEnum → Node → Bool) (root : Node) :
    List CSTBoundaryWithMeta :=
  visitDocsSpec language filter root ⟨[], none⟩ []

mutual

/-- All nodes of a tree in preorder. -/
def allNodes : Node → List Node
  | n@(.mk _ _ _ _ _ _ cs) => n :: allNodesList cs

def allNodesList : List Node → List Node
  | [] => []
  | c :: rest => allNodes c ++ allNodesList rest

end

/-- The languages whose docs extractor is the comment-adjacency walk. -/
def commentAdjacencyLang : LanguageEnum → Bool
  | .javascript | .typescript | .rust | .java | .ruby | .c | .cpp | .go
  | .csharp => true
  | .python | .html | .css | .bash => false

/-- The languages whose docs extractor never finds documentation. -/
def noDocsFamily : LanguageEnum → Bool
  | .html | .css | .bash => true
  | _ => false

/-- Consecutive nodes start on consecutive rows, top to bottom. -/
def AdjacentRows : List Node → Bool
  | [] => true
  | [_] => true
  | a :: b :: rest => (b.startRow == a.startRow + 1) && AdjacentRows (b :: rest)

/-- The sibling just before the comment run (head of the reversed preceding
sibling list), if any, does not itself continue the run above `first`:
either it is not a comment or it does not sit on the row directly above. -/
def runStop (first : Node) (before : List Node) : Bool :=
  match before with
  | [] => true
  | q :: _ => !(strContains q.type "comment" && (first.startRow == q.startRow + 1))

/-- Newline-joined concatenation, the reading of the spec's
"concatenate the run top-to-bottom, newline-joined". -/
def newlineJoined : List String → String
  | [] => ""
  | [a] => a
  | a :: b :: rest => a ++ "\n" ++ newlineJoined (b :: rest)

/-- The text accumulated by `docWalk` over a node run: each node's text
followed by a newline, then the previous accumulator. -/
def joinAcc : List Node → String → String
  | [], acc => acc
  | c :: rest, acc => c.text ++ "\n" ++ joinAcc rest acc

/-- Ordering facts about a reversed preceding-sibling list relative to a
bound: every listed node has an ordered span, the nearest one ends no later
than the bound, and each earlier one ends no later than the next one
starts. -/
def ChainRev : List Node → Nat → Prop
  | [], _ => True
  | x :: rest, bound =>
      x.startIndex ≤ x.endIndex ∧ x.endIndex ≤ bound ∧ ChainRev rest x.startIndex

/-- Context wellformedness for a visited node: its preceding siblings end
before it starts, and likewise for the parent's preceding siblings relative
to the parent, which itself starts no later than the node. -/
def CtxBound (ctx : Ctx) (n : Node) : Prop :=
  ChainRev ctx.prevRev n.startIndex ∧
    match ctx.parent with
    | none => True
    | some (p, pPrev) => ChainRev pPrev p.startIndex ∧ p.startIndex ≤ n.startIndex

/-! ### Concrete example trees and environments -/

/-- A single line comment `// d` on row 0, offsets 0–4. -/
def exComment : Node := .mk "comment" 0 4 "// d" 0 none []

/-- A function declaration `function f() {}` on row 1, offsets 5–20. -/
def exFn : Node := .mk "function_declaration" 5 20 "function f() {}" 1 none []

/-- Source text containing a comment line followed by a function. -/
def exSrc : String := "// d\nfunction f() {}"

/-- Program root of `exSrc` with the comment and the function as
children. -/
def exRoot : Node := .mk "program" 0 20 "// d\nfunction f() {}" 0 none
  [exComment, exFn]

/-- Two stacked comment lines on rows 0 and 1. -/
def exCommentA : Node := .mk "comment" 0 4 "// a" 0 none []

def exCommentB : Node := .mk "comment" 5 9 "// b" 1 none []

/-- A function on row 2 below the two comments. -/
def exFn2 : Node := .mk "function_declaration" 10 25 "function g() {}" 2 none []

def exRoot2 : Node := .mk "program" 0 25 "// a\n// b\nfunction g() {}" 0 none
  [exCommentA, exCommentB, exFn2]

/-- A Python docstring node: the bare string literal opening the body. -/
def pyStr : Node := .mk "string" 9 20 "\x22docstring\x22" 1 none []

def pyExprStmt : Node := .mk "expression_statement" 9 20 "\x22docstring\x22" 1 none
  [pyStr]

def pyBlock : Node := .mk "block" 9 30 "\x22docstring\x22\n    pass" 1 none
  [pyExprStmt, .mk "pass_statement" 25 29 "pass" 2 none []]

/-- A Python function whose first body statement is the docstring. -/
def pyFn : Node := .mk "function_definition" 0 30 "def f():\n    \x22docstring\x22\n    pass" 0 none
  [.mk "identifier" 4 5 "f" 0 (some "name") [], pyBlock]

def pyRoot : Node := .mk "module" 0 30 "def f():\n    \x22docstring\x22\n    pass" 0 none
  [pyFn]

/-- Loader environment whose grammars all load but fail to bind. -/
def exBadBindEnv : LoaderEnv :=
  { loadResult := fun _ => some ⟨0⟩
    bindOk := fun _ => false }

/-- Loader environment whose grammars load and bind. -/
def exGoodEnv : LoaderEnv :=
  { loadResult := fun _ => some ⟨0⟩
    bindOk := fun _ => true }

/-- Loader environment whose grammar imports all fail (the loader returns
`null`). -/
def exNoLoadEnv : LoaderEnv :=
  { loadResult := fun _ => none
    bindOk := fun _ => true }

/-- A chunk value for the directory-walk example. -/
def exChunkB : BoundaryChunk :=
  { content := "function h() {}"
    startOffset := 0
    endOffset := 15
    boundary := { type := "function_declaration", name := some "h",
                  parent := [], docs := some "" } }

/-- A directory with one file whose chunking promise rejects and a sibling
file that chunks fine. -/
def exEntries : List FSEntry :=
  [.file "a.ts" (.error "parse failure"), .file "b.ts" (.ok [exChunkB])]

end CodeChopper

namespace CodeChopper

/-! ### Lemmas: parent chains -/

theorem specParentChain_append (language : LanguageEnum)
    (filter : LanguageEnum → Node → Bool) (a b : List (Option Node × Node)) :
    specParentChain language filter (a ++ b) =
      specParentChain language filter a ++ specParentChain language filter b := by
  simp [specParentChain, List.filterMap_append]

mutual

theorem visit_eq_visitSpec (language : LanguageEnum)
    (filter : LanguageEnum → Node → Bool) (n : Node) (ctx : Ctx)
    (anc : List (Option Node × Node)) :
    visit language filter n ctx (specParentChain language filter anc) =
      visitSpec language filter n ctx anc := by
  cases n with
  | mk k s e t r f cs =>
    simp only [visit, visitSpec]
    have hch : (if (isBoundary language k && filter language (Node.mk k s e t r f cs)) &&
        jsTruthy (extractName language (ctx.parent.map Prod.fst) (Node.mk k s e t r f cs)) then
          specParentChain language filter anc ++
            [(extractName language (ctx.parent.map Prod.fst) (Node.mk k s e t r f cs)).getD ""]
        else specParentChain language filter anc) =
        specParentChain language filter
          (anc ++ [(ctx.parent.map Prod.fst, Node.mk k s e t r f cs)]) := by
      rw [specParentChain_append]
      simp only [specParentChain, List.filterMap]
      cases hb : isBoundary language (Node.mk k s e t r f cs).type with
      | false => simp [Node.type] at hb; simp [hb]
      | true =>
        simp only [Node.type] at hb
        cases hf : filter language (Node.mk k s e t r f cs) with
        | false => simp [hb, hf]
        | true =>
          cases ht : jsTruthy (extractName language (ctx.parent.map Prod.fst)
              (Node.mk k s e t r f cs)) with
          | false => simp [hb, hf, ht]
          | true => simp [hb, hf, ht]
    rw [hch, visitChildren_eq_visitSpec language filter cs (Node.mk k s e t r f cs)
      ctx.prevRev [] (anc ++ [(ctx.parent.map Prod.fst, Node.mk k s e t r f cs)])]

theorem visitChildren_eq_visitSpec (language : LanguageEnum)
    (filter : LanguageEnum → Node → Bool) (cs : List Node) (parent : Node)
    (parentPrevRev prevRev : List Node) (anc : List (Option Node × Node)) :
    visitChildren language filter cs parent parentPrevRev prevRev
        (specParentChain language filter anc) =
      visitSpecChildren language filter cs parent parentPrevRev prevRev anc := by
  cases cs with
  | nil => simp [visitChildren, visitSpecChildren]
  | cons c rest =>
    simp only [visitChildren, visitSpecChildren]
    rw [visit_eq_visitSpec language filter c ⟨prevRev, some (parent, parentPrevRev)⟩ anc,
      visitChildren_eq_visitSpec language filter rest parent parentPrevRev
        (c :: prevRev) anc]

end

/-- C6: for every emitted chunk, its parent chain (`boundary.parent`, the
`parentInfo` of the raw boundary) equals the ordered list of names of
exactly those ancestor boundary nodes that were accepted (boundary kind and
filter approved) and truthy-named, outermost to innermost: the source
traversal coincides with the specification-side traversal that computes
each record's chain by filtering the explicit ancestor list. -/
theorem parentChain_matches_spec (language : LanguageEnum)
    (filter : LanguageEnum → Node → Bool) (root : Node) :
    traverse language filter root = traverseSpec language filter root ∧
      chunkCST language filter root =
        boundariesToChunks (traverseSpec language filter root) := by
  have h : traverse language filter root = traverseSpec language filter root := by
    have := visit_eq_visitSpec language filter root ⟨[], none⟩ []
    simpa [traverse, traverseSpec, specParentChain] using this
  exact ⟨h, by rw [chunkCST, h]⟩

end CodeChopper

namespace CodeChopper

/-! ### Lemmas: emission counting -/

mutual

theorem visit_length (language : LanguageEnum)
    (filter : LanguageEnum → Node → Bool) (n : Node) (ctx : Ctx)
    (pInfo : List String) :
    (visit language filter n ctx pInfo).length =
      ((allNodes n).filter
        (fun m => isBoundary language m.type && filter language m)).length := by
  cases n with
  | mk k s e t r f cs =>
    simp only [visit, allNodes, List.length_append, List.filter_cons]
    have hk : (Node.mk k s e t r f cs).type = k := rfl
    rw [hk]
    cases ha : isBoundary language k && filter language (Node.mk k s e t r f cs) with
    | false =>
      simp only [ha, Bool.false_eq_true, if_false, List.length_nil, Nat.zero_add]
      exact visitChildren_length language filter cs (Node.mk k s e t r f cs)
        ctx.prevRev [] _
    | true =>
      simp only [ha, if_true, List.length_singleton, List.length_cons]
      rw [visitChildren_length language filter cs (Node.mk k s e t r f cs)
        ctx.prevRev [] _]
      simp [Nat.add_comm]

theorem visitChildren_length (language : LanguageEnum)
    (filter : LanguageEnum → Node → Bool) (cs : List Node) (parent : Node)
    (parentPrevRev prevRev : List Node) (pInfo : List String) :
    (visitChildren language filter cs parent parentPrevRev prevRev pInfo).length =
      ((allNodesList cs).filter
        (fun m => isBoundary language m.type && filter language m)).length := by
  cases cs with
  | nil => simp [visitChildren, allNodesList]
  | cons c rest =>
    simp only [visitChildren, allNodesList, List.length_append, List.filter_append]
    rw [visit_length language filter c ⟨prevRev, some (parent, parentPrevRev)⟩ pInfo,
      visitChildren_length language filter rest parent parentPrevRev (c :: prevRev)
        pInfo]

end

/-- C7: a node yields a raw boundary iff its kind is in the language's
boundary set and the filter approves it — the number of emitted records
always equals the number of accepted nodes among all nodes of the tree, so
rejection filters output while every subtree is still visited — and the
always-false filter yields the empty output (the traversal is a total
function, so it cannot throw). -/
theorem emission_iff_accepted (language : LanguageEnum)
    (filter : LanguageEnum → Node → Bool) (root : Node) :
    (traverse language filter root).length =
      ((allNodes root).filter
        (fun m => isBoundary language m.type && filter language m)).length ∧
      traverse language (fun _ _ => false) root = [] := by
  refine ⟨visit_length language filter root ⟨[], none⟩ [], ?_⟩
  have h := visit_length language (fun _ _ => false) root ⟨[], none⟩ []
  simp only [Bool.and_false, List.filter_false] at h
  simpa [traverse, List.length_eq_zero] using h

/-! ### Lemmas: docs text for the no-docs family -/

mutual

theorem visit_docsText_empty (language : LanguageEnum)
    (filter : LanguageEnum → Node → Bool) (n : Node) (ctx : Ctx)
    (pInfo : List String) (h : noDocsFamily language = true) :
    ∀ b ∈ visit language filter n ctx pInfo, b.docsText = "" := by
  cases n with
  | mk k s e t r f cs =>
    have hd : extractDocs language ctx (Node.mk k s e t r f cs) = .noDocs := by
      cases language <;> simp_all [noDocsFamily, extractDocs]
    intro b hb
    simp only [visit, hd, List.mem_append] at hb
    rcases hb with hb | hb
    · cases ha : isBoundary language k && filter language (Node.mk k s e t r f cs) with
      | false => simp [ha] at hb
      | true =>
        simp only [ha, if_true, List.mem_singleton] at hb
        subst hb
        rfl
    · exact visitChildren_docsText_empty language filter cs (Node.mk k s e t r f cs)
        ctx.prevRev [] _ h b hb

theorem visitChildren_docsText_empty (language : LanguageEnum)
    (filter : LanguageEnum → Node → Bool) (cs : List Node) (parent : Node)
    (parentPrevRev prevRev : List Node) (pInfo : List String)
    (h : noDocsFamily language = true) :
    ∀ b ∈ visitChildren language filter cs parent parentPrevRev prevRev pInfo,
      b.docsText = "" := by
  cases cs with
  | nil => simp [visitChildren]
  | cons c rest =>
    intro b hb
    simp only [visitChildren, List.mem_append] at hb
    rcases hb with hb | hb
    · exact visit_docsText_empty language filter c
        ⟨prevRev, some (parent, parentPrevRev)⟩ pInfo h b hb
    · exact visitChildren_docsText_empty language filter rest parent parentPrevRev
        (c :: prevRev) pInfo h b hb

end

mutual

theorem visit_eq_visitDocsSpec (language : LanguageEnum)
    (filter : LanguageEnum → Node → Bool) (n : Node) (ctx : Ctx)
    (pInfo : List String) :
    visit language filter n ctx pInfo = visitDocsSpec language filter n ctx
      pInfo := by
  cases n with
  | mk k s e t r f cs =>
    simp only [visit, visitDocsSpec]
    have hdocs : (match extractDocs language ctx (Node.mk k s e t r f cs) with
        | .docs dt _ _ => dt
        | .noDocs => "") =
        (extractDocs language ctx (Node.mk k s e t r f cs)).textOrEmpty := by
      cases extractDocs language ctx (Node.mk k s e t r f cs) <;> rfl
    rw [hdocs, visitChildren_eq_visitDocsSpecChildren language filter cs
      (Node.mk k s e t r f cs) ctx.prevRev [] _]

theorem visitChildren_eq_visitDocsSpecChildren (language : LanguageEnum)
    (filter : LanguageEnum → Node → Bool) (cs : List Node) (parent : Node)
    (parentPrevRev prevRev : List Node) (pInfo : List String) :
    visitChildren language filter cs parent parentPrevRev prevRev pInfo =
      visitDocsSpecChildren language filter cs parent parentPrevRev prevRev
        pInfo := by
  cases cs with
  | nil => simp [visitChildren, visitDocsSpecChildren]
  | cons c rest =>
    simp only [visitChildren, visitDocsSpecChildren]
    rw [visit_eq_visitDocsSpec language filter c
        ⟨prevRev, some (parent, parentPrevRev)⟩ pInfo,
      visitChildren_eq_visitDocsSpecChildren language filter rest parent
        parentPrevRev (c :: prevRev) pInfo]

end

/-- C10: every emitted chunk carries a defined `docs` string even though the
`BoundaryInfo` type declares the field optional — the materializer always
writes `some docsText` — and, in every language, each emitted record's
`docsText` equals the extractor outcome at its node via `textOrEmpty`: the
found documentation's text, and the empty string exactly when no
documentation was found (the traversal equals the spec-side documentation
characterization traversal); in particular, for the languages whose
extractor never finds documentation, every chunk carries `some ""`. -/
theorem chunk_docs_always_defined (language : LanguageEnum)
    (filter : LanguageEnum → Node → Bool) (root : Node) :
    (chunkCST language filter root).all (fun c => c.boundary.docs.isSome) = true ∧
      traverse language filter root = traverseDocsSpec language filter root ∧
      (noDocsFamily language = true →
        (chunkCST language filter root).all
          (fun c => c.boundary.docs == some "") = true) := by
  refine ⟨?_, ?_, ?_⟩
  · simp [chunkCST, boundariesToChunks, List.all_eq_true]
  · exact visit_eq_visitDocsSpec language filter root ⟨[], none⟩ []
  · intro h
    simp only [chunkCST, boundariesToChunks, List.all_eq_true, List.mem_map]
    rintro c ⟨b, hb, rfl⟩
    have := visit_docsText_empty language filter root ⟨[], none⟩ [] h b hb
    simp [this]

/-- C10 witness: a concrete run in the bash family, exercising all three
parts. -/
theorem chunk_docs_always_defined_witness :
    (chunkCST .bash (fun _ _ => true) exRoot).all
        (fun c => c.boundary.docs.isSome) = true ∧
      traverse .bash (fun _ _ => true) exRoot =
        traverseDocsSpec .bash (fun _ _ => true) exRoot ∧
      (chunkCST .bash (fun _ _ => true) exRoot).all
        (fun c => c.boundary.docs == some "") = true :=
  ⟨(chunk_docs_always_defined .bash (fun _ _ => true) exRoot).1,
    (chunk_docs_always_defined .bash (fun _ _ => true) exRoot).2.1,
    (chunk_docs_always_defined .bash (fun _ _ => true) exRoot).2.2 rfl⟩

end CodeChopper

namespace CodeChopper

/-! ### Lemmas: parser factory -/

theorem find?_append_of_none {α : Type} (p : α → Bool) (l1 l2 : List α)
    (h : l1.find? p = none) : (l1 ++ l2).find? p = l2.find? p := by
  induction l1 with
  | nil => simp
  | cons a rest ih =>
    simp only [List.cons_append, List.find?_cons] at h ⊢
    cases hp : p a with
    | false =>
      simp only [hp] at h ⊢
      exact ih h
    | true => simp [hp] at h

/-- C2 evidence: `createParser` evaluated at a supported language whose
grammar module loads but fails to bind to a parser instance: the call
terminates the process (the `exit()` in the `setLanguage` catch handler)
instead of returning a recoverable absent/error result, contradicting the
claim. -/
theorem createParser_bind_failure_terminates :
    createParser exBadBindEnv ⟨[], 0⟩ "python" =
      (.terminated, ⟨[], 0⟩, [.python]) := by decide

/-- C8: an unrecognized language string returns absent at once with no load
attempted; a failed grammar load returns absent (not termination); and once
a call has returned a parser, a repeat call for the same language returns
that same cached instance with no further load. -/
theorem createParser_absent_and_cached (env : LoaderEnv) (st : FactoryState)
    (language : String) :
    (isSupportedLanguage language = none →
        createParser env st language = (.returned none, st, [])) ∧
      (∀ l, isSupportedLanguage language = some l →
        st.parsers.find? (fun e => e.1 == language) = none →
        env.loadResult l = none →
        createParser env st language = (.returned none, st, [l])) ∧
      (∀ p st2 loads,
        createParser env st language = (.returned (some p), st2, loads) →
        createParser env st2 language = (.returned (some p), st2, [])) := by
  refine ⟨fun h => by simp [createParser, h], fun l hl hc hload => by
    simp [createParser, hl, hc, hload], fun p st2 loads hcall => ?_⟩
  unfold createParser at hcall ⊢
  cases hl : isSupportedLanguage language with
  | none => simp [hl] at hcall
  | some l =>
    simp only [hl] at hcall ⊢
    cases hc : st.parsers.find? (fun e => e.1 == language) with
    | some entry =>
      simp only [hc, Prod.mk.injEq, CallResult.returned.injEq,
        Option.some.injEq] at hcall
      rcases hcall with ⟨h1, h2, h3⟩
      subst h1
      subst h2
      simp [hc]
    | none =>
      simp only [hc] at hcall
      cases hload : env.loadResult l with
      | none => simp [hload] at hcall
      | some m =>
        simp only [hload] at hcall
        cases hbind : env.bindOk m with
        | false => simp [hbind] at hcall
        | true =>
          simp only [hbind, if_true, Prod.mk.injEq, CallResult.returned.injEq,
            Option.some.injEq] at hcall
          rcases hcall with ⟨h1, h2, h3⟩
          subst h1
          subst h2
          have hfind : (st.parsers ++ [(language, (⟨st.nextId⟩ : Parser))]).find?
              (fun e => e.1 == language) = some (language, ⟨st.nextId⟩) := by
            rw [find?_append_of_none _ _ _ hc]
            simp [List.find?_cons]
          simp [hfind]

/-- C8 witness: a concrete loader environment exercising all three parts:
an unrecognized language, a language whose grammar fails to load, and a
cached reuse after a first successful creation. -/
theorem createParser_absent_and_cached_witness :
    createParser exGoodEnv ⟨[], 0⟩ "fortran" = (.returned none, ⟨[], 0⟩, []) ∧
      createParser exNoLoadEnv ⟨[], 0⟩ "python" =
        (.returned none, ⟨[], 0⟩, [.python]) ∧
      createParser exGoodEnv ⟨[("python", ⟨0⟩)], 1⟩ "python" =
        (.returned (some ⟨0⟩), ⟨[("python", ⟨0⟩)], 1⟩, []) :=
  ⟨(createParser_absent_and_cached exGoodEnv ⟨[], 0⟩ "fortran").1 rfl,
    (createParser_absent_and_cached exNoLoadEnv ⟨[], 0⟩ "python").2.1 .python rfl rfl
      rfl,
    (createParser_absent_and_cached exGoodEnv ⟨[], 0⟩ "python").2.2 ⟨0⟩
      ⟨[("python", ⟨0⟩)], 1⟩ [.python] (by decide)⟩

/-- C5 evidence: the directory walk evaluated at a directory whose first
file's chunking promise rejects while the sibling's resolves: the whole
directory operation rejects and the sibling's chunks are lost, because the
`try/catch` around the un-awaited `async` call intercepts nothing; the
second conjunct shows the sibling entry on its own chunks fine. -/
theorem readDirectory_aborts_on_single_file_failure :
    readDirectoryAndChunk exEntries = .error "parse failure" ∧
      chunkEntry (.file "b.ts" (.ok [exChunkB])) = .ok [exChunkB] :=
  ⟨rfl, rfl⟩

end CodeChopper

namespace CodeChopper

/-! ### Lemmas: content slices -/

theorem sliceStr_length (src : String) (a b : Nat) :
    (sliceStr src a b).length = min (b - a) (src.length - a) := by
  show ((src.data.drop a).take (b - a)).length = min (b - a) (src.data.length - a)
  simp

theorem text_slice_shift (src : String) (s e : Nat) (t : String)
    (ht : t = sliceStr src s e) (he : e ≤ src.length) :
    t = sliceStr src (e - t.length) e := by
  rcases le_or_lt s e with hse | hes
  · have hlen : t.length = e - s := by
      rw [ht, sliceStr_length]
      omega
    rw [hlen, show e - (e - s) = s from by omega]
    exact ht
  · have h0 : e - s = 0 := by omega
    have htt : t = "" := by
      rw [ht]
      simp [sliceStr, h0]
    subst htt
    rw [show ("" : String).length = 0 from rfl, Nat.sub_zero]
    simp [sliceStr, Nat.sub_self]

mutual

theorem visit_text_slice (src : String) (language : LanguageEnum)
    (filter : LanguageEnum → Node → Bool) (n : Node) (ctx : Ctx)
    (pInfo : List String) (ht : TextMatches src n = true) :
    ∀ b ∈ visit language filter n ctx pInfo,
      b.text = sliceStr src (b.endIndex - b.text.length) b.endIndex := by
  cases n with
  | mk k s e t r f cs =>
    simp only [TextMatches, Bool.and_eq_true, beq_iff_eq, decide_eq_true_eq] at ht
    intro b hb
    simp only [visit, List.mem_append] at hb
    rcases hb with hb | hb
    · cases ha : isBoundary language k && filter language (Node.mk k s e t r f cs) with
      | false => simp [ha] at hb
      | true =>
        simp only [ha, if_true, List.mem_singleton] at hb
        subst hb
        exact text_slice_shift src s e t ht.1.1 ht.1.2
    · exact visitChildren_text_slice src language filter cs (Node.mk k s e t r f cs)
        ctx.prevRev [] _ ht.2 b hb

theorem visitChildren_text_slice (src : String) (language : LanguageEnum)
    (filter : LanguageEnum → Node → Bool) (cs : List Node) (parent : Node)
    (parentPrevRev prevRev : List Node) (pInfo : List String)
    (ht : TextList src cs = true) :
    ∀ b ∈ visitChildren language filter cs parent parentPrevRev prevRev pInfo,
      b.text = sliceStr src (b.endIndex - b.text.length) b.endIndex := by
  cases cs with
  | nil => simp [visitChildren]
  | cons c rest =>
    simp only [TextList, Bool.and_eq_true] at ht
    intro b hb
    simp only [visitChildren, List.mem_append] at hb
    rcases hb with hb | hb
    · exact visit_text_slice src language filter c
        ⟨prevRev, some (parent, parentPrevRev)⟩ pInfo ht.1 b hb
    · exact visitChildren_text_slice src language filter rest parent parentPrevRev
        (c :: prevRev) pInfo ht.2 b hb

end

/-- C1 counterexample: on a consistent tree for the source
`// d\nfunction f() {}`, the function chunk's `startOffset` is extended
backward to the leading comment's start, but `content` stays the node's own
text, so `content` is not `source[startOffset:endOffset]`. -/
theorem content_not_slice_at_docs_counterexample :
    Consistent exSrc exRoot = true ∧
      chunkCST .typescript (fun _ _ => true) exRoot =
        [{ content := "function f() {}", startOffset := 0, endOffset := 20,
           boundary := { type := "function_declaration", name := none,
                         parent := [], docs := some "// d\n" } }] ∧
      sliceStr exSrc 0 20 ≠ "function f() {}" := by decide

/-- C1 (amended): for every emitted chunk over a tree consistent with the
source, `content` equals the exact substring of the source of content's own
length ending at `endOffset`, i.e. `source[endOffset - |content| : endOffset]`
(the node's own span); when an attached documentation moved `startOffset`,
the doc text is not part of `content`, so the claimed
`content = source[startOffset:endOffset]` holds exactly when `startOffset`
was left at the node's own start. -/
theorem chunk_content_slice (src : String) (language : LanguageEnum)
    (filter : LanguageEnum → Node → Bool) (root : Node)
    (h : Consistent src root = true) :
    (chunkCST language filter root).all
      (fun c => c.content == sliceStr src (c.endOffset - c.content.length)
        c.endOffset) = true := by
  have ht : TextMatches src root = true := by
    simp only [Consistent, Bool.and_eq_true] at h
    exact h.2
  simp only [chunkCST, boundariesToChunks, List.all_eq_true, List.mem_map]
  rintro c ⟨b, hb, rfl⟩
  have := visit_text_slice src language filter root ⟨[], none⟩ [] ht b hb
  simpa using this

/-- C1 witness: the amended slice property evaluated on the concrete
consistent tree. -/
theorem chunk_content_slice_witness :
    Consistent exSrc exRoot = true ∧
      (chunkCST .typescript (fun _ _ => true) exRoot).all
        (fun c => c.content == sliceStr exSrc (c.endOffset - c.content.length)
          c.endOffset) = true :=
  ⟨by decide, chunk_content_slice exSrc .typescript (fun _ _ => true) exRoot
    (by decide)⟩

end CodeChopper

namespace CodeChopper

/-! ### Lemmas: offset ordering -/

theorem chainRev_mono {l : List Node} {b b2 : Nat} (h : ChainRev l b)
    (hb : b ≤ b2) : ChainRev l b2 := by
  cases l with
  | nil => trivial
  | cons x rest => exact ⟨h.1, le_trans h.2.1 hb, h.2.2⟩

theorem chainRev_start_le {l : List Node} {b : Nat} (h : ChainRev l b) :
    ∀ x ∈ l, x.startIndex ≤ b := by
  induction l generalizing b with
  | nil => simp
  | cons y rest ih =>
    intro x hx
    rcases List.mem_cons.mp hx with rfl | hx
    · exact le_trans h.1 h.2.1
    · exact le_trans (ih h.2.2 x hx) (le_trans h.1 h.2.1)

theorem docWalk_fst_mem (cur : Node) (rest : List Node) (acc : String) :
    (docWalk cur rest acc).1 ∈ cur :: rest := by
  induction rest generalizing cur acc with
  | nil => simp [docWalk]
  | cons p rest2 ih =>
    simp only [docWalk]
    cases hcond : strContains p.type "comment" && (cur.startRow == p.startRow + 1)
      with
    | true =>
      simp only [hcond, if_true]
      exact List.mem_cons_of_mem cur (ih p (cur.text ++ "\n" ++ acc))
    | false => simp [hcond]

theorem outerDocFromSibs_start_le {sibs : List Node} {bound B : Nat}
    (hchain : ChainRev sibs bound) (hbB : bound ≤ B) :
    ∀ dt ds de, outerDocFromSibs sibs = .docs dt ds de → ds ≤ B := by
  intro dt ds de h
  cases sibs with
  | nil => simp [outerDocFromSibs] at h
  | cons dc before =>
    simp only [outerDocFromSibs] at h
    cases hcomm : strContains dc.type "comment" with
    | false => simp [hcomm] at h
    | true =>
      simp only [hcomm, if_true, DocsDetail.docs.injEq] at h
      rcases h with ⟨h1, h2, h3⟩
      subst h2
      exact le_trans
        (chainRev_start_le hchain _ (docWalk_fst_mem dc before "")) hbB

theorem childSpans_mem_end {lo hi : Nat} {l : List Node}
    (h : childSpans lo hi l = true) : ∀ c ∈ l, c.endIndex ≤ hi := by
  induction l generalizing lo with
  | nil => simp
  | cons c rest ih =>
    simp only [childSpans, Bool.and_eq_true, decide_eq_true_eq] at h
    intro x hx
    rcases List.mem_cons.mp hx with rfl | hx
    · exact h.1.2
    · exact ih h.2 x hx

theorem spansList_mem {l : List Node} (h : SpansList l = true) :
    ∀ c ∈ l, SpansOrdered c = true := by
  induction l with
  | nil => simp
  | cons c rest ih =>
    simp only [SpansList, Bool.and_eq_true] at h
    intro x hx
    rcases List.mem_cons.mp hx with rfl | hx
    · exact h.1
    · exact ih h.2 x hx

theorem spansOrdered_parts {k : String} {s e : Nat} {t : String} {r : Nat}
    {f : Option String} {cs : List Node}
    (h : SpansOrdered (Node.mk k s e t r f cs) = true) :
    s ≤ e ∧ childSpans s e cs = true ∧ SpansList cs = true := by
  simp only [SpansOrdered, Bool.and_eq_true, decide_eq_true_eq] at h
  exact ⟨h.1.1, h.1.2, h.2⟩

theorem spansOrdered_le {n : Node} (h : SpansOrdered n = true) :
    n.startIndex ≤ n.endIndex := by
  cases n with
  | mk k s e t r f cs => exact (spansOrdered_parts h).1

theorem spans_child {n c : Node} (hs : SpansOrdered n = true)
    (hm : c ∈ n.children) : SpansOrdered c = true ∧ c.endIndex ≤ n.endIndex := by
  cases n with
  | mk k s e t r f cs =>
    have hp := spansOrdered_parts hs
    exact ⟨spansList_mem hp.2.2 c hm, childSpans_mem_end hp.2.1 c hm⟩

theorem pyDoc_start_le {n : Node} (hs : SpansOrdered n = true) :
    ∀ dt ds de, extractPyDocComment n = .docs dt ds de → ds ≤ n.endIndex := by
  intro dt ds de h
  simp only [extractPyDocComment] at h
  cases h1 : n.children.getLast? with
  | none => simp [h1] at h
  | some c1 =>
    cases h2 : c1.children.head? with
    | none => simp [h1, h2] at h
    | some c2 =>
      cases h3 : c2.children.head? with
      | none => simp [h1, h2, h3] at h
      | some d =>
        simp only [h1, h2, h3, Option.some_bind] at h
        cases hstr : d.type == "string" with
        | false => simp [hstr] at h
        | true =>
          simp only [hstr, if_true, DocsDetail.docs.injEq] at h
          rcases h with ⟨ht, hds, hde⟩
          subst hds
          have hm1 : c1 ∈ n.children :=
            List.mem_of_mem_getLast? (by simp [Option.mem_def, h1])
          have hm2 : c2 ∈ c1.children :=
            List.mem_of_mem_head? (by simp [Option.mem_def, h2])
          have hm3 : d ∈ c2.children :=
            List.mem_of_mem_head? (by simp [Option.mem_def, h3])
          have f1 := spans_child hs hm1
          have f2 := spans_child f1.1 hm2
          have f3 := spans_child f2.1 hm3
          exact le_trans (spansOrdered_le f3.1)
            (le_trans f3.2 (le_trans f2.2 f1.2))

theorem exportAdjusted_start_le {ctx : Ctx} {n : Node}
    (hc : CtxBound ctx n) :
    ∀ dt ds de, outerDocFromSibs (exportAdjusted ctx) = .docs dt ds de →
      ds ≤ n.startIndex := by
  intro dt ds de h
  rcases hctx : ctx.parent with _ | ⟨p, pPrev⟩
  · rw [exportAdjusted, hctx] at h
    exact outerDocFromSibs_start_le hc.1 (le_refl _) dt ds de h
  · have hpar := hc.2
    rw [hctx] at hpar
    simp only [exportAdjusted, hctx] at h
    cases hex : p.type == "export_statement" with
    | true =>
      simp only [hex, if_true] at h
      exact outerDocFromSibs_start_le hpar.1 hpar.2 dt ds de h
    | false =>
      simp only [hex, Bool.false_eq_true, if_false] at h
      exact outerDocFromSibs_start_le hc.1 (le_refl _) dt ds de h

theorem docs_start_le {language : LanguageEnum} {ctx : Ctx} {n : Node}
    (hs : SpansOrdered n = true) (hc : CtxBound ctx n) :
    ∀ dt ds de, extractDocs language ctx n = .docs dt ds de →
      ds ≤ n.endIndex := by
  intro dt ds de h
  have hsn : n.startIndex ≤ n.endIndex := spansOrdered_le hs
  cases language with
  | python => exact pyDoc_start_le hs dt ds de h
  | html => simp [extractDocs] at h
  | css => simp [extractDocs] at h
  | bash => simp [extractDocs] at h
  | javascript =>
    simp only [extractDocs, extractOuterDocComment] at h
    exact le_trans (exportAdjusted_start_le hc dt ds de h) hsn
  | typescript =>
    simp only [extractDocs, extractOuterDocComment] at h
    exact le_trans (exportAdjusted_start_le hc dt ds de h) hsn
  | rust =>
    simp only [extractDocs, extractOuterDocComment] at h
    exact outerDocFromSibs_start_le hc.1 hsn dt ds de h
  | java =>
    simp only [extractDocs, extractOuterDocComment] at h
    exact outerDocFromSibs_start_le hc.1 hsn dt ds de h
  | ruby =>
    simp only [extractDocs, extractOuterDocComment] at h
    exact outerDocFromSibs_start_le hc.1 hsn dt ds de h
  | c =>
    simp only [extractDocs, extractOuterDocComment] at h
    exact outerDocFromSibs_start_le hc.1 hsn dt ds de h
  | cpp =>
    simp only [extractDocs, extractOuterDocComment] at h
    exact outerDocFromSibs_start_le hc.1 hsn dt ds de h
  | go =>
    simp only [extractDocs, extractOuterDocComment] at h
    exact outerDocFromSibs_start_le hc.1 hsn dt ds de h
  | csharp =>
    simp only [extractDocs, extractOuterDocComment] at h
    exact outerDocFromSibs_start_le hc.1 hsn dt ds de h

end CodeChopper

namespace CodeChopper

mutual

theorem visit_offsets (language : LanguageEnum)
    (filter : LanguageEnum → Node → Bool) (n : Node) (ctx : Ctx)
    (pInfo : List String) (hs : SpansOrdered n = true) (hc : CtxBound ctx n) :
    ∀ b ∈ visit language filter n ctx pInfo,
      b.startIndex ≤ b.endIndex := by
  cases n with
  | mk k s e t r f cs =>
    have hp := spansOrdered_parts hs
    intro b hb
    simp only [visit, List.mem_append] at hb
    rcases hb with hb | hb
    · cases ha : isBoundary language k && filter language (Node.mk k s e t r f cs)
        with
      | false => simp [ha] at hb
      | true =>
        simp only [ha, if_true, List.mem_singleton] at hb
        subst hb
        cases hd : extractDocs language ctx (Node.mk k s e t r f cs) with
        | noDocs => simpa [hd] using hp.1
        | docs dt ds de =>
          simp only [hd]
          exact docs_start_le hs hc dt ds de hd
    · exact visitChildren_offsets language filter cs (Node.mk k s e t r f cs)
        ctx.prevRev [] _ s e hp.2.2 hp.2.1 trivial hc.1 (le_refl s) b hb

theorem visitChildren_offsets (language : LanguageEnum)
    (filter : LanguageEnum → Node → Bool) (cs : List Node) (parent : Node)
    (parentPrevRev prevRev : List Node) (pInfo : List String) (lo hi : Nat)
    (hlist : SpansList cs = true) (hspan : childSpans lo hi cs = true)
    (hchain : ChainRev prevRev lo)
    (hpchain : ChainRev parentPrevRev parent.startIndex)
    (hplo : parent.startIndex ≤ lo) :
    ∀ b ∈ visitChildren language filter cs parent parentPrevRev prevRev pInfo,
      b.startIndex ≤ b.endIndex := by
  cases cs with
  | nil => simp [visitChildren]
  | cons c rest =>
    simp only [SpansList, Bool.and_eq_true] at hlist
    simp only [childSpans, Bool.and_eq_true, decide_eq_true_eq] at hspan
    intro b hb
    simp only [visitChildren, List.mem_append] at hb
    rcases hb with hb | hb
    · refine visit_offsets language filter c
        ⟨prevRev, some (parent, parentPrevRev)⟩ pInfo hlist.1
        ⟨chainRev_mono hchain hspan.1.1, hpchain,
          le_trans hplo hspan.1.1⟩ b hb
    · refine visitChildren_offsets language filter rest parent parentPrevRev
        (c :: prevRev) pInfo c.endIndex hi hlist.2 hspan.2
        ⟨spansOrdered_le hlist.1, le_refl _, chainRev_mono hchain hspan.1.1⟩
        hpchain (le_trans hplo (le_trans hspan.1.1 (spansOrdered_le hlist.1)))
        b hb

end

/-- C9: for every emitted raw boundary and chunk over a span-wellformed
tree, `startOffset ≤ endOffset`, including when the start was replaced by an
attached comment block's start (comment-adjacency family) or by a
docstring's start (Python). -/
theorem startOffset_le_endOffset (language : LanguageEnum)
    (filter : LanguageEnum → Node → Bool) (root : Node)
    (h : SpansOrdered root = true) :
    (traverse language filter root).all
        (fun b => decide (b.startIndex ≤ b.endIndex)) = true ∧
      (chunkCST language filter root).all
        (fun c => decide (c.startOffset ≤ c.endOffset)) = true := by
  have hv := visit_offsets language filter root ⟨[], none⟩ [] h ⟨trivial, trivial⟩
  constructor
  · simp only [List.all_eq_true, decide_eq_true_eq]
    exact fun b hb => hv b hb
  · simp only [chunkCST, boundariesToChunks, List.all_eq_true, List.mem_map,
      decide_eq_true_eq]
    rintro c ⟨b, hb, rfl⟩
    simpa using hv b hb

/-- C9 witness: the offset invariant evaluated on the concrete consistent
tree. -/
theorem startOffset_le_endOffset_witness :
    SpansOrdered exRoot = true ∧
      (traverse .typescript (fun _ _ => true) exRoot).all
        (fun b => decide (b.startIndex ≤ b.endIndex)) = true ∧
      (chunkCST .typescript (fun _ _ => true) exRoot).all
        (fun c => decide (c.startOffset ≤ c.endOffset)) = true :=
  ⟨by decide,
    (startOffset_le_endOffset .typescript (fun _ _ => true) exRoot (by decide)).1,
    (startOffset_le_endOffset .typescript (fun _ _ => true) exRoot (by decide)).2⟩

end CodeChopper

namespace CodeChopper

/-- C3 counterexample: a Python function at offsets 0–30 whose first body
statement is the docstring at offsets 9–20 yields a chunk whose `docs` is
the literal's exact text, but whose `startOffset` is 9 — the docstring's
start, not the function definition's own start 0: the offset is moved
(forward, into the node), contradicting the claim that it stays at the
function's start. -/
theorem pyDocstring_startOffset_moved_counterexample :
    chunkCST .python (fun _ _ => true) pyRoot =
      [{ content := "def f():\n    \x22docstring\x22\n    pass", startOffset := 9,
         endOffset := 30,
         boundary := { type := "function_definition", name := some "f",
                       parent := [], docs := some "\x22docstring\x22" } }] ∧
      pyFn.startIndex = 0 ∧ (9 : Nat) ≠ 0 := by decide

/-- C3 (amended): for a Python boundary node whose docstring candidate
(`lastChild.firstChild.firstChild`) is a `string` node `d`, the emitted
chunk's `docs` equals `d`'s exact text (quotes included) and its
`startOffset` equals `d`'s own start offset — a position inside the
function's span, moved forward from the function definition's start rather
than left there. -/
theorem pyDocstring_docs_and_startOffset
    (filter : LanguageEnum → Node → Bool) (root fn d : Node)
    (hroot : root.children = [fn])
    (hrootacc : (isBoundary .python root.type && filter .python root) = false)
    (hfnacc : (isBoundary .python fn.type && filter .python fn) = true)
    (hd : ((fn.children.getLast?.bind fun c => c.children.head?).bind
        (fun c => c.children.head?)) = some d)
    (hstr : d.type = "string") :
    (chunkCST .python filter root).head? =
      some { content := fn.text, startOffset := d.startIndex,
             endOffset := fn.endIndex,
             boundary := { type := fn.type,
                           name := extractName .python (some root) fn,
                           parent := [], docs := some d.text } } := by
  cases root with
  | mk rk rs re rt rr rf cs =>
    simp only [Node.children] at hroot
    subst hroot
    simp only [Node.type] at hrootacc
    cases fn with
    | mk fk fs fe ft fr ff fcs =>
      simp only [Node.type] at hfnacc
      simp only [chunkCST, traverse, visit, visitChildren, hrootacc,
        Bool.false_eq_true, if_false, Bool.false_and, List.nil_append,
        List.append_nil]
      simp only [extractDocs, extractPyDocComment] at *
      simp only [hd, Option.some_bind, hstr, beq_self_eq_true, if_true,
        hfnacc, if_true]
      simp [boundariesToChunks, Node.text, Node.endIndex, Node.startIndex,
        Node.type, Option.map]

/-- C3 witness: the amended docstring behavior evaluated on the concrete
Python tree. -/
theorem pyDocstring_docs_and_startOffset_witness :
    (chunkCST .python (fun _ _ => true) pyRoot).head? =
      some { content := pyFn.text, startOffset := pyStr.startIndex,
             endOffset := pyFn.endIndex,
             boundary := { type := pyFn.type,
                           name := extractName .python (some pyRoot) pyFn,
                           parent := [], docs := some pyStr.text } } :=
  pyDocstring_docs_and_startOffset (fun _ _ => true) pyRoot pyFn pyStr rfl
    (by decide) (by decide) rfl rfl

end CodeChopper

namespace CodeChopper

/-! ### Lemmas: comment run collection -/

theorem joinAcc_concat (xs : List Node) (x : Node) (acc : String) :
    joinAcc (xs ++ [x]) acc = joinAcc xs (x.text ++ "\n" ++ acc) := by
  induction xs with
  | nil => simp [joinAcc]
  | cons c rest ih => simp [joinAcc, ih]

theorem headD_concat (l : List Node) (a d : Node) :
    (l ++ [a]).headD d = l.headD a := by
  cases l <;> simp

theorem adjacentRows_concat {xs : List Node} {x : Node}
    (h : AdjacentRows (xs ++ [x]) = true) :
    AdjacentRows xs = true ∧
      ∀ y, xs.getLast? = some y → x.startRow = y.startRow + 1 := by
  induction xs with
  | nil => simp [AdjacentRows]
  | cons a rest ih =>
    cases rest with
    | nil =>
      simp only [List.cons_append, List.nil_append, AdjacentRows,
        Bool.and_eq_true, beq_iff_eq] at h
      refine ⟨rfl, ?_⟩
      intro y hy
      simp only [List.getLast?_singleton, Option.some.injEq] at hy
      subst hy
      exact h.1
    | cons b rest2 =>
      simp only [List.cons_append, AdjacentRows, Bool.and_eq_true,
        beq_iff_eq] at h ⊢
      have hrec := ih (by
        simp only [List.cons_append, AdjacentRows, Bool.and_eq_true] at h ⊢
        exact h.2)
      refine ⟨⟨h.1, ?_⟩, ?_⟩
      · simpa [AdjacentRows] using hrec.1
      · intro y hy
        exact hrec.2 y (by simpa using hy)

theorem docWalk_run (xs : List Node) (x : Node) (pre2 : List Node)
    (acc : String)
    (hall : ((xs ++ [x]).all fun c => strContains c.type "comment") = true)
    (hadj : AdjacentRows (xs ++ [x]) = true)
    (hstop : runStop ((xs ++ [x]).headD x) pre2 = true) :
    docWalk x (xs.reverse ++ pre2) acc =
      ((xs ++ [x]).headD x, joinAcc (xs ++ [x]) acc) := by
  induction xs using List.reverseRecOn generalizing x acc with
  | nil =>
    simp only [List.nil_append, List.headD_cons, joinAcc] at hstop ⊢
    cases pre2 with
    | nil => simp [docWalk]
    | cons q rest =>
      simp only [runStop, Bool.not_eq_true', Bool.and_eq_false_iff] at hstop
      simp only [docWalk]
      rcases hstop with hq | hq
      · simp [hq]
      · simp [hq]
  | append_singleton ys y ih =>
    have hx_adj : x.startRow = y.startRow + 1 :=
      (adjacentRows_concat hadj).2 y (by simp)
    have hy_comm : strContains y.type "comment" = true := by
      simp only [List.all_eq_true] at hall
      exact hall y (List.mem_append_left _ (by simp))
    have hall2 : ((ys ++ [y]).all fun c => strContains c.type "comment") = true := by
      simp only [List.all_eq_true] at hall ⊢
      intro c hc
      exact hall c (List.mem_append_left _ hc)
    have hadj2 : AdjacentRows (ys ++ [y]) = true := (adjacentRows_concat hadj).1
    have hstop2 : runStop ((ys ++ [y]).headD y) pre2 = true := by
      have hh : ((ys ++ [y]) ++ [x]).headD x = (ys ++ [y]).headD y := by
        rw [headD_concat, headD_concat, headD_concat]
      rw [← hh]
      exact hstop
    have step : docWalk x ((ys ++ [y]).reverse ++ pre2) acc =
        docWalk y (ys.reverse ++ pre2) (x.text ++ "\n" ++ acc) := by
      simp only [List.reverse_append, List.reverse_singleton,
        List.singleton_append, List.cons_append, docWalk, hy_comm, hx_adj]
      simp
    rw [step, ih y (x.text ++ "\n" ++ acc) hall2 hadj2 hstop2]
    simp only [Prod.mk.injEq]
    refine ⟨?_, ?_⟩
    · rw [headD_concat, headD_concat, headD_concat]
    · rw [← joinAcc_concat]

theorem joinAcc_eq_newlineJoined (l : List Node) (acc : String) (h : l ≠ []) :
    joinAcc l acc = newlineJoined (l.map Node.text) ++ "\n" ++ acc := by
  induction l with
  | nil => exact absurd rfl h
  | cons c rest ih =>
    cases rest with
    | nil => simp [joinAcc, newlineJoined]
    | cons d rest2 =>
      have step1 : joinAcc (c :: d :: rest2) acc =
          c.text ++ "\n" ++ joinAcc (d :: rest2) acc := rfl
      rw [step1, ih (by simp)]
      simp only [List.map_cons, newlineJoined]
      simp [String.append_assoc]

end CodeChopper

namespace CodeChopper

theorem visitChildren_inert (language : LanguageEnum)
    (filter : LanguageEnum → Node → Bool) (l rest : List Node) (parent : Node)
    (parentPrevRev : List Node) (pInfo : List String) :
    ∀ prevRev : List Node,
      (∀ x ∈ l, x.children = [] ∧
        (isBoundary language x.type && filter language x) = false) →
      visitChildren language filter (l ++ rest) parent parentPrevRev prevRev
          pInfo =
        visitChildren language filter rest parent parentPrevRev
          (l.reverse ++ prevRev) pInfo := by
  induction l with
  | nil => simp
  | cons x l2 ih =>
    intro prevRev hin
    have hx := hin x (by simp)
    have hvx : visit language filter x
        ⟨prevRev, some (parent, parentPrevRev)⟩ pInfo = [] := by
      cases x with
      | mk k s e t r f cs =>
        obtain ⟨hc1, hc2⟩ := hx
        simp only [Node.children] at hc1
        subst hc1
        simp only [Node.type] at hc2
        simp [visit, visitChildren, hc2]
    simp only [List.cons_append, visitChildren, hvx, List.nil_append]
    have hrw : ((x :: l2).reverse ++ prevRev) = l2.reverse ++ (x :: prevRev) := by
      simp
    rw [hrw]
    exact ih (x :: prevRev) (fun y hy => hin y (by simp [hy]))

/-- C4 counterexample: a single comment line `// d` directly above a
function is a maximal run of one comment; its newline-joined concatenation
is `// d`, but the emitted chunk's docs is `// d\n` — the code appends a
trailing newline after the run — so the claim's equality fails (the
startOffset part does hold). -/
theorem commentRun_trailing_newline_counterexample :
    (chunkCST .typescript (fun _ _ => true) exRoot).map
        (fun c => (c.startOffset, c.boundary.docs)) =
      [(0, some "// d\n")] ∧
      newlineJoined [exComment.text] = "// d" ∧
      some "// d\n" ≠ some (newlineJoined [exComment.text]) := by decide

/-- C4 (amended): for a boundary node in a comment-adjacency language
preceded (with no intervening siblings) by a maximal run of contiguous,
row-adjacent comment siblings, the emitted chunk's docs equals the run's
texts newline-joined top-to-bottom *followed by a trailing newline*, and
its startOffset equals the earliest comment's start offset. -/
theorem commentRun_docs_and_startOffset (language : LanguageEnum)
    (filter : LanguageEnum → Node → Bool) (root fn chead : Node)
    (pre ctail : List Node)
    (hlang : commentAdjacencyLang language = true)
    (hroot : root.children = pre ++ (chead :: ctail) ++ [fn])
    (hexport : (root.type == "export_statement") = false)
    (hrootacc : (isBoundary language root.type && filter language root) = false)
    (hpre : ∀ x ∈ pre, x.children = [] ∧
      (isBoundary language x.type && filter language x) = false)
    (hrun : ∀ x ∈ chead :: ctail, strContains x.type "comment" = true ∧
      x.children = [] ∧ (isBoundary language x.type && filter language x) = false)
    (hadj : AdjacentRows (chead :: ctail) = true)
    (hstop : runStop chead pre.reverse = true)
    (hfnacc : (isBoundary language fn.type && filter language fn) = true) :
    ((chunkCST language filter root).head?).map
        (fun c => (c.startOffset, c.boundary.docs)) =
      some (chead.startIndex,
        some (newlineJoined ((chead :: ctail).map Node.text) ++ "\n")) := by
  obtain ⟨xs, x, hxx⟩ : ∃ xs x, chead :: ctail = xs ++ [x] := by
    rcases List.eq_nil_or_concat (chead :: ctail) with h | ⟨xs, x, h⟩
    · simp at h
    · exact ⟨xs, x, by simpa [List.concat_eq_append] using h⟩
  have hxmem : x ∈ chead :: ctail := by
    rw [hxx]
    exact List.mem_append_right _ (by simp)
  have hdocs_walk : docWalk x (xs.reverse ++ pre.reverse) "" =
      (chead, joinAcc (chead :: ctail) "") := by
    have hall : ((xs ++ [x]).all fun c => strContains c.type "comment") = true := by
      rw [← hxx]
      exact List.all_eq_true.mpr fun c hc => (hrun c hc).1
    have hadj2 : AdjacentRows (xs ++ [x]) = true := by
      rw [← hxx]
      exact hadj
    have hhead : (xs ++ [x]).headD x = chead := by
      rw [← hxx]
      simp
    have hstop2 : runStop ((xs ++ [x]).headD x) pre.reverse = true := by
      rw [hhead]
      exact hstop
    rw [docWalk_run xs x pre.reverse "" hall hadj2 hstop2, hhead, ← hxx]
  cases root with
  | mk rk rs re rt rr rf cs =>
    simp only [Node.children] at hroot
    subst hroot
    simp only [Node.type] at hrootacc hexport
    cases fn with
    | mk fk fs fe ft fr ff fcs =>
      simp only [Node.type] at hfnacc
      have hinert : ∀ y ∈ pre ++ (chead :: ctail), y.children = [] ∧
          (isBoundary language y.type && filter language y) = false := by
        intro y hy
        rcases List.mem_append.mp hy with hy | hy
        · exact hpre y hy
        · exact ⟨(hrun y hy).2.1, (hrun y hy).2.2⟩
      have hsibs : (pre ++ (chead :: ctail)).reverse =
          x :: (xs.reverse ++ pre.reverse) := by
        rw [List.reverse_append, hxx]
        simp [List.reverse_append, List.append_assoc]
      have hxcomm : strContains x.type "comment" = true := (hrun x hxmem).1
      have houter : outerDocFromSibs (x :: (xs.reverse ++ pre.reverse)) =
          .docs (joinAcc (chead :: ctail) "") chead.startIndex x.endIndex := by
        simp only [outerDocFromSibs, hdocs_walk, hxcomm, if_true]
      have hext : ∀ (n p : Node) (pPrev : List Node),
          (p.type == "export_statement") = false →
          extractDocs language ⟨x :: (xs.reverse ++ pre.reverse), some (p, pPrev)⟩
              n =
            .docs (joinAcc (chead :: ctail) "") chead.startIndex x.endIndex := by
        intro n p pPrev hpexp
        cases language with
        | javascript =>
          simp only [extractDocs, extractOuterDocComment, exportAdjusted, hpexp,
            Bool.false_eq_true, if_false]
          exact houter
        | typescript =>
          simp only [extractDocs, extractOuterDocComment, exportAdjusted, hpexp,
            Bool.false_eq_true, if_false]
          exact houter
        | rust =>
          simp only [extractDocs, extractOuterDocComment]
          exact houter
        | java =>
          simp only [extractDocs, extractOuterDocComment]
          exact houter
        | ruby =>
          simp only [extractDocs, extractOuterDocComment]
          exact houter
        | c =>
          simp only [extractDocs, extractOuterDocComment]
          exact houter
        | cpp =>
          simp only [extractDocs, extractOuterDocComment]
          exact houter
        | go =>
          simp only [extractDocs, extractOuterDocComment]
          exact houter
        | csharp =>
          simp only [extractDocs, extractOuterDocComment]
          exact houter
        | python => exact absurd hlang (by decide)
        | html => exact absurd hlang (by decide)
        | css => exact absurd hlang (by decide)
        | bash => exact absurd hlang (by decide)
      simp only [chunkCST, traverse, visit, hrootacc, Bool.false_eq_true,
        if_false, Bool.false_and, List.nil_append]
      rw [visitChildren_inert language filter (pre ++ (chead :: ctail))
        [Node.mk fk fs fe ft fr ff fcs] (Node.mk rk rs re rt rr rf
          (pre ++ (chead :: ctail) ++ [Node.mk fk fs fe ft fr ff fcs])) [] []
        [] hinert]
      simp only [visitChildren, List.append_nil]
      rw [hsibs]
      simp only [visit, hfnacc, if_true]
      rw [hext (Node.mk fk fs fe ft fr ff fcs)
        (Node.mk rk rs re rt rr rf
          (pre ++ (chead :: ctail) ++ [Node.mk fk fs fe ft fr ff fcs])) []
        (by simpa [Node.type] using hexport)]
      simp only [boundariesToChunks, List.singleton_append, List.map_cons,
        List.head?_cons, Option.map_some]
      rw [joinAcc_eq_newlineJoined (chead :: ctail) "" (by simp),
        String.append_empty]
      simp

end CodeChopper

namespace CodeChopper

/-- C4 witness: the amended comment-run property evaluated on a run of two
stacked comment lines above a function. -/
theorem commentRun_docs_and_startOffset_witness :
    ((chunkCST .typescript (fun _ _ => true) exRoot2).head?).map
        (fun c => (c.startOffset, c.boundary.docs)) =
      some (exCommentA.startIndex,
        some (newlineJoined ((exCommentA :: [exCommentB]).map Node.text) ++
          "\n")) :=
  commentRun_docs_and_startOffset .typescript (fun _ _ => true) exRoot2 exFn2
    exCommentA [] [exCommentB] rfl rfl (by decide) (by decide)
    (fun y hy => absurd hy (List.not_mem_nil y))
    (by
      intro y hy
      rcases List.mem_cons.mp hy with rfl | hy
      · exact ⟨by decide, rfl, by decide⟩
      · rcases List.mem_cons.mp hy with rfl | hy
        · exact ⟨by decide, rfl, by decide⟩
        · exact absurd hy (List.not_mem_nil y))
    (by decide) (by decide) (by decide)

end CodeChopper
